import Mathlib

/-
Shallow embedding of the ks3-rust-sdk signing, credential, region and XML
utility code (src/signature/signer.rs, src/credential/mod.rs,
src/signature/region.rs, src/core/proto/xml/util.rs).

Rust `String`s are modelled by Lean `String`; `BTreeMap<String, V>` is
modelled by an association list sorted by the byte-lexicographic order
(UTF-8 byte order coincides with code-point order, so the lexicographic
order on `Char.toNat` used here agrees with Rust Ord for String).
Header values (`Vec<u8>`) are modelled as UTF-8 strings, which is the
form the signer consumes them in (`str::from_utf8`).
-/

namespace KS3

/-- Lowercase a single character exactly as Rust `u8::to_ascii_lowercase`
does: characters A-Z map to a-z, everything else is untouched.  This is
the same map as the core `Char.toLower`. -/
def lowerChar (c : Char) : Char :=
  if 65 ≤ c.toNat ∧ c.toNat ≤ 90 then Char.ofNat (c.toNat + 32) else c

/-- Rust `str::make_ascii_lowercase` / `to_ascii_lowercase`. -/
def lowerStr (s : String) : String :=
  ⟨s.data.map lowerChar⟩

/-- Byte-lexicographic order on character lists (mirrors Rust Ord for String). -/
def lexLt : List Char → List Char → Bool
  | [], [] => false
  | [], _ :: _ => true
  | _ :: _, [] => false
  | a :: as, b :: bs =>
    if a.toNat < b.toNat then true
    else if b.toNat < a.toNat then false
    else lexLt as bs

/-- Order on strings used by the `BTreeMap` model. -/
def strLt (a b : String) : Bool := lexLt a.data b.data

/-- Rust `str::starts_with` for string arguments. -/
def strStartsWith (s pre : String) : Bool := pre.data.isPrefixOf s.data

/-- Drop the last character of a string; models `String::remove(len-1)`
in `canonical_headers`, which is only reached when the string ends with a
one-byte character. -/
def dropLastChar (s : String) : String := ⟨s.data.dropLast⟩

/-- Association-list model of `BTreeMap<String, V>`: entries listed in
strictly ascending key order. -/
abbrev AList (α : Type) : Type := List (String × α)

/-- `BTreeMap::get`. -/
def alGet {α : Type} (k : String) : AList α → Option α
  | [] => none
  | kv :: t => if kv.1 = k then some kv.2 else alGet k t

/-- `BTreeMap::remove` (on well-formed maps the key occurs at most once;
removing every occurrence coincides with removing the entry). -/
def alErase {α : Type} (k : String) : AList α → AList α
  | [] => []
  | kv :: t => if kv.1 = k then alErase k t else kv :: alErase k t

/-- `BTreeMap::entry(k).or_default().push(v)` on a sorted association
list: append `v` to the value vector at `k`, inserting a fresh entry in
order if the key is absent. -/
def alInsertAppend (k : String) (v : String) : AList (List String) → AList (List String)
  | [] => [(k, [v])]
  | (k2, vs) :: t =>
    if strLt k k2 then (k, [v]) :: (k2, vs) :: t
    else if k = k2 then (k2, vs ++ [v]) :: t
    else (k2, vs) :: alInsertAppend k v t

/-- `BTreeMap::insert` (replacing any existing value) on a sorted
association list. -/
def alInsertReplace {α : Type} (k : String) (v : α) : AList α → AList α
  | [] => [(k, v)]
  | (k2, w) :: t =>
    if strLt k k2 then (k, v) :: (k2, w) :: t
    else if k = k2 then (k, v) :: t
    else (k2, w) :: alInsertReplace k v t

/-- Keys of a map, in iteration order. -/
def alKeys {α : Type} (m : AList α) : List String := m.map (·.1)

/-- The map invariant: keys strictly ascending (hence pairwise distinct). -/
def SortedKeys {α : Type} (m : AList α) : Prop :=
  List.Pairwise (fun a b => strLt a b = true) (alKeys m)

/-- All keys are fixed by ASCII lowercasing. -/
def LowercaseKeys {α : Type} (m : AList α) : Prop :=
  ∀ kv ∈ m, lowerStr kv.1 = kv.1

instance {α : Type} (m : AList α) : Decidable (LowercaseKeys m) :=
  List.decidableBAll _ m

instance {α : Type} (m : AList α) : Decidable (SortedKeys m) := by
  unfold SortedKeys; infer_instance

/-! Region (src/signature/region.rs). -/

/-- The `Region` enum. -/
inductive Region : Type
  | ApEast1 | ApNortheast1 | ApNortheast2 | ApNortheast3
  | ApSouth1 | ApSoutheast1 | ApSoutheast2
  | CaCentral1
  | EuCentral1 | EuWest1 | EuWest2 | EuWest3 | EuNorth1 | EuSouth1
  | MeSouth1 | SaEast1
  | UsEast1 | UsEast2 | UsWest1 | UsWest2 | UsGovEast1 | UsGovWest1
  | CnNorth1 | CnNorthwest1 | AfSouth1
  | Custom (name : String) (endpoint : String)
deriving DecidableEq

/-- `Region::name`. -/
def Region.name : Region → String
  | .ApEast1 => "ap-east-1"
  | .ApNortheast1 => "ap-northeast-1"
  | .ApNortheast2 => "ap-northeast-2"
  | .ApNortheast3 => "ap-northeast-3"
  | .ApSouth1 => "ap-south-1"
  | .ApSoutheast1 => "ap-southeast-1"
  | .ApSoutheast2 => "ap-southeast-2"
  | .CaCentral1 => "ca-central-1"
  | .EuCentral1 => "eu-central-1"
  | .EuWest1 => "eu-west-1"
  | .EuWest2 => "eu-west-2"
  | .EuWest3 => "eu-west-3"
  | .EuNorth1 => "eu-north-1"
  | .EuSouth1 => "eu-south-1"
  | .MeSouth1 => "me-south-1"
  | .SaEast1 => "sa-east-1"
  | .UsEast1 => "us-east-1"
  | .UsEast2 => "us-east-2"
  | .UsWest1 => "us-west-1"
  | .UsWest2 => "us-west-2"
  | .UsGovEast1 => "us-gov-east-1"
  | .UsGovWest1 => "us-gov-west-1"
  | .CnNorth1 => "cn-north-1"
  | .CnNorthwest1 => "cn-northwest-1"
  | .AfSouth1 => "af-south-1"
  | .Custom n _ => n

/-- Discriminator for the `Custom` variant. -/
def Region.isCustom : Region → Bool
  | .Custom _ _ => true
  | _ => false

/-- `ParseRegionError`; `new` formats "Not a valid AWS region: {input}". -/
structure ParseRegionError where
  message : String
deriving DecidableEq

/-- `ParseRegionError::new`. -/
def ParseRegionError.ofInput (input : String) : ParseRegionError :=
  ⟨"Not a valid AWS region: " ++ input⟩

/-- `Region::from_str`: lowercase the input, then match against the
hyphenated and the squashed spelling of each named region.  (Rust
`str::to_lowercase` is modelled by ASCII lowercasing, with which it
agrees on ASCII input such as every region name.) -/
def Region.fromStrLower (v : String) : Except ParseRegionError Region :=
  if v = "ap-east-1" ∨ v = "apeast1" then .ok .ApEast1
  else if v = "ap-northeast-1" ∨ v = "apnortheast1" then .ok .ApNortheast1
  else if v = "ap-northeast-2" ∨ v = "apnortheast2" then .ok .ApNortheast2
  else if v = "ap-northeast-3" ∨ v = "apnortheast3" then .ok .ApNortheast3
  else if v = "ap-south-1" ∨ v = "apsouth1" then .ok .ApSouth1
  else if v = "ap-southeast-1" ∨ v = "apsoutheast1" then .ok .ApSoutheast1
  else if v = "ap-southeast-2" ∨ v = "apsoutheast2" then .ok .ApSoutheast2
  else if v = "ca-central-1" ∨ v = "cacentral1" then .ok .CaCentral1
  else if v = "eu-central-1" ∨ v = "eucentral1" then .ok .EuCentral1
  else if v = "eu-west-1" ∨ v = "euwest1" then .ok .EuWest1
  else if v = "eu-west-2" ∨ v = "euwest2" then .ok .EuWest2
  else if v = "eu-west-3" ∨ v = "euwest3" then .ok .EuWest3
  else if v = "eu-north-1" ∨ v = "eunorth1" then .ok .EuNorth1
  else if v = "eu-south-1" ∨ v = "eusouth1" then .ok .EuSouth1
  else if v = "me-south-1" ∨ v = "mesouth1" then .ok .MeSouth1
  else if v = "sa-east-1" ∨ v = "saeast1" then .ok .SaEast1
  else if v = "us-east-1" ∨ v = "useast1" then .ok .UsEast1
  else if v = "us-east-2" ∨ v = "useast2" then .ok .UsEast2
  else if v = "us-west-1" ∨ v = "uswest1" then .ok .UsWest1
  else if v = "us-west-2" ∨ v = "uswest2" then .ok .UsWest2
  else if v = "us-gov-east-1" ∨ v = "usgoveast1" then .ok .UsGovEast1
  else if v = "us-gov-west-1" ∨ v = "usgovwest1" then .ok .UsGovWest1
  else if v = "cn-north-1" ∨ v = "cnnorth1" then .ok .CnNorth1
  else if v = "cn-northwest-1" ∨ v = "cnnorthwest1" then .ok .CnNorthwest1
  else if v = "af-south-1" ∨ v = "afsouth1" then .ok .AfSouth1
  else .error (ParseRegionError.ofInput v)

/-- `Region::from_str` proper: bind `v = s.to_lowercase()` and match. -/
def Region.fromStr (s : String) : Except ParseRegionError Region :=
  Region.fromStrLower (lowerStr s)

/-! Credentials (src/credential/mod.rs).  Timestamps are modelled as
integer seconds; `ChronoDuration::seconds(20)` is the constant 20. -/

/-- `AwsCredentials`. -/
structure AwsCredentials where
  key : String
  secret : String
  token : Option String
  expiresAt : Option Int
deriving DecidableEq

/-- `AwsCredentials::credentials_are_expired` at instant `now`:
`Some e => e < now + 20s`, `None => false`. -/
def credentialsAreExpired (c : AwsCredentials) (now : Int) : Bool :=
  match c.expiresAt with
  | some e => decide (e < now + 20)
  | none => false

/-! Percent encoding (percent_encoding crate, configured in signer.rs). -/

/-- UTF-8 encoding of a scalar value, as the byte list the
percent-encoder iterates over. -/
def utf8Bytes (c : Char) : List Nat :=
  let n := c.toNat
  if n < 0x80 then [n]
  else if n < 0x800 then [0xC0 + n / 64, 0x80 + n % 64]
  else if n < 0x10000 then [0xE0 + n / 4096, 0x80 + (n / 64) % 64, 0x80 + n % 64]
  else [0xF0 + n / 262144, 0x80 + (n / 4096) % 64, 0x80 + (n / 64) % 64, 0x80 + n % 64]

/-- Uppercase hexadecimal digit. -/
def hexUpper (n : Nat) : Char :=
  if n < 10 then Char.ofNat (48 + n) else Char.ofNat (55 + n)

/-- Membership in the complement of `STRICT_ENCODE_SET`
(`NON_ALPHANUMERIC` minus `-`, `.`, `_`, `~`): bytes that stay
unencoded. -/
def strictAllowed (b : Nat) : Bool :=
  decide ((48 ≤ b ∧ b ≤ 57) ∨ (65 ≤ b ∧ b ≤ 90) ∨ (97 ≤ b ∧ b ≤ 122) ∨
    b = 45 ∨ b = 46 ∨ b = 95 ∨ b = 126)

/-- Complement of `STRICT_PATH_ENCODE_SET`: additionally `/` stays
unencoded. -/
def pathAllowed (b : Nat) : Bool :=
  strictAllowed b || decide (b = 47)

/-- One byte of `utf8_percent_encode` output. -/
def percentEncodeByte (allowed : Nat → Bool) (b : Nat) : List Char :=
  if allowed b then [Char.ofNat b] else ['%', hexUpper (b / 16), hexUpper (b % 16)]

/-- `utf8_percent_encode(s, set).collect::<String>()`. -/
def percentEncode (allowed : Nat → Bool) (s : String) : String :=
  ⟨(s.data.flatMap utf8Bytes).flatMap (percentEncodeByte allowed)⟩

/-- `encode_uri_path` (strict set with `/` preserved). -/
def encode_uri_path (uri : String) : String := percentEncode pathAllowed uri

/-- `encode_uri_strict` (strict RFC 3986 unreserved set). -/
def encode_uri_strict (uri : String) : String := percentEncode strictAllowed uri

/-! Endpoint splitting and hostnames (signer.rs lines 506-581). -/

/-- Suffix of the character list after the first occurrence of `"://"`,
if any (mirrors `endpoint.find("://")`). -/
def afterScheme : List Char → Option (List Char)
  | ':' :: '/' :: '/' :: t => some t
  | _ :: t => afterScheme t
  | [] => none

/-- `extract_endpoint_components`: strip the scheme, then split at the
first `/` into hostname and (optional) path that keeps its leading `/`. -/
def extract_endpoint_components (endpoint : String) : String × Option String :=
  let unschemed := (afterScheme endpoint.data).getD endpoint.data
  let host := unschemed.takeWhile (fun c => decide (c ≠ '/'))
  match unschemed.dropWhile (fun c => decide (c ≠ '/')) with
  | [] => (⟨host⟩, none)
  | p => (⟨host⟩, some ⟨p⟩)

/-- `extract_endpoint_path`. -/
def extract_endpoint_path (endpoint : String) : Option String :=
  (extract_endpoint_components endpoint).2

/-- `extract_hostname`. -/
def extract_hostname (endpoint : String) : String :=
  (extract_endpoint_components endpoint).1

/-- `build_hostname`: service match, with each arm dispatching on the
region (`Custom` always resolves through `extract_hostname`). -/
def build_hostname (service : String) (region : Region) : String :=
  if service = "organizations" then
    match region with
    | .Custom _ endpoint => extract_hostname endpoint
    | .CnNorth1 | .CnNorthwest1 => "organizations.cn-northwest-1.amazonaws.com.cn"
    | .UsGovEast1 | .UsGovWest1 => "organizations.us-gov-west-1.amazonaws.com"
    | _ => "organizations.us-east-1.amazonaws.com"
  else if service = "iam" then
    match region with
    | .Custom _ endpoint => extract_hostname endpoint
    | .CnNorth1 => "iam" ++ "." ++ Region.CnNorth1.name ++ ".amazonaws.com.cn"
    | .CnNorthwest1 => "iam" ++ "." ++ Region.CnNorthwest1.name ++ ".amazonaws.com.cn"
    | _ => "iam" ++ ".amazonaws.com"
  else if service = "chime" then
    match region with
    | .Custom _ endpoint => extract_hostname endpoint
    | _ => "service." ++ "chime" ++ ".aws.amazon.com"
  else if service = "cloudfront" then
    match region with
    | .Custom _ endpoint => extract_hostname endpoint
    | _ => "cloudfront" ++ ".amazonaws.com"
  else if service = "importexport" then
    match region with
    | .Custom _ endpoint => extract_hostname endpoint
    | _ => "importexport.amazonaws.com"
  else if service = "s3" then
    match region with
    | .Custom _ endpoint => extract_hostname endpoint
    | .CnNorth1 => "s3." ++ Region.CnNorth1.name ++ ".amazonaws.com.cn"
    | .CnNorthwest1 => "s3." ++ Region.CnNorthwest1.name ++ ".amazonaws.com.cn"
    | r => "s3." ++ r.name ++ ".amazonaws.com"
  else if service = "route53" then
    match region with
    | .Custom _ endpoint => extract_hostname endpoint
    | _ => "route53.amazonaws.com"
  else if service = "sdb" then
    match region with
    | .Custom _ endpoint => extract_hostname endpoint
    | .UsEast1 => "sdb.amazonaws.com"
    | r => "sdb." ++ r.name ++ ".amazonaws.com"
  else
    match region with
    | .Custom _ endpoint => extract_hostname endpoint
    | .CnNorth1 => service ++ "." ++ Region.CnNorth1.name ++ ".amazonaws.com.cn"
    | .CnNorthwest1 => service ++ "." ++ Region.CnNorthwest1.name ++ ".amazonaws.com.cn"
    | r => service ++ "." ++ r.name ++ ".amazonaws.com"

/-- `canonical_uri(path, region)`. -/
def canonical_uri (path : String) (region : Region) : String :=
  let endpointPath :=
    match region with
    | .Custom _ endpoint => extract_endpoint_path endpoint
    | _ => none
  match endpointPath, path with
  | some pre, "" => pre
  | none, "" => "/"
  | some pre, p => encode_uri_path (pre ++ p)
  | none, p => encode_uri_path p

/-! Canonical query string and headers (signer.rs lines 422-504). -/

/-- One iteration of the `build_canonical_query_string` loop. -/
def bcqsStep (output : String) (kv : String × Option String) : String :=
  let output := if output = "" then output else output ++ "&"
  let output := output ++ encode_uri_strict kv.1 ++ "="
  match kv.2 with
  | some v => output ++ encode_uri_strict v
  | none => output

/-- `build_canonical_query_string`. -/
def build_canonical_query_string (params : AList (Option String)) : String :=
  if params = [] then "" else params.foldl bcqsStep ""

/-- `canonical_values`: comma-join the value vector, but the separator is
only emitted while the accumulator is nonempty. -/
def canonical_values (values : List String) : String :=
  values.foldl (fun st s => if st = "" then st ++ s else st ++ "," ++ s) ""

/-- One iteration of the `canonical_headers` loop. -/
def chStep (acc : String) (kv : String × List String) : String :=
  if strStartsWith kv.1 "x-amz-" then acc ++ kv.1 ++ ":" ++ canonical_values kv.2 ++ "\n"
  else acc

/-- `canonical_headers`: lines for the `x-amz-` keys in iteration order,
with the final newline removed. -/
def canonical_headers (headers : AList (List String)) : String :=
  let c := headers.foldl chStep ""
  if c = "" then c else dropLastChar c

/-! SignedRequest (signer.rs lines 62-388). -/

/-- `SignedRequestPayload`: a buffered body (byte list) or a stream,
of which only the size hint is relevant to signing. -/
inductive SignedRequestPayload : Type
  | buffer (bytes : List Nat)
  | stream (sizeHint : Option Nat)
deriving DecidableEq

/-- `SignedRequest`. -/
structure SignedRequest where
  method : String
  service : String
  region : Region
  path : String
  headers : AList (List String)
  params : AList (Option String)
  scheme : Option String
  hostname : Option String
  payload : Option SignedRequestPayload
  canonicalQueryString : String
  canonicalUri : String
deriving DecidableEq

/-- `SignedRequest::new`. -/
def SignedRequest.new (method service : String) (region : Region) (path : String) :
    SignedRequest :=
  { method := method, service := service, region := region, path := path,
    headers := [], params := [], scheme := none, hostname := none,
    payload := none, canonicalQueryString := "", canonicalUri := "" }

/-- `SignedRequest::add_header`: lowercase the key, append the value. -/
def SignedRequest.addHeader (st : SignedRequest) (key value : String) : SignedRequest :=
  { st with headers := alInsertAppend (lowerStr key) value st.headers }

/-- `SignedRequest::remove_header`: lowercase the key, remove the entry. -/
def SignedRequest.removeHeader (st : SignedRequest) (key : String) : SignedRequest :=
  { st with headers := alErase (lowerStr key) st.headers }

/-- `SignedRequest::add_optional_header`. -/
def SignedRequest.addOptionalHeader (st : SignedRequest) (key : String)
    (value : Option String) : SignedRequest :=
  match value with
  | some v => st.addHeader key v
  | none => st

/-- `SignedRequest::set_content_type`. -/
def SignedRequest.setContentType (st : SignedRequest) (contentType : String) :
    SignedRequest :=
  st.addHeader "content-type" contentType

/-- `SignedRequest::add_param`. -/
def SignedRequest.addParam (st : SignedRequest) (key value : String) : SignedRequest :=
  { st with params := alInsertReplace key (some value) st.params }

/-- `SignedRequest::hostname()`: the explicit hostname if set, otherwise
`build_hostname`. -/
def SignedRequest.hostnameOf (st : SignedRequest) : String :=
  match st.hostname with
  | some h => h
  | none => build_hostname st.service st.region

/-- `SignedRequest::canonical_path()`. -/
def SignedRequest.canonicalPath (st : SignedRequest) : String :=
  canonical_uri st.path st.region

/-- Decimal rendering of a natural number (`format!("{}", len)`), by
structural recursion on a fuel argument. -/
def natToStrAux : Nat → Nat → List Char
  | 0, _ => []
  | _ + 1, n =>
    if n < 10 then [Char.ofNat (48 + n)]
    else natToStrAux n (n / 10) ++ [Char.ofNat (48 + n % 10)]

/-- Decimal rendering of a natural number. -/
def natToStr (n : Nat) : String := ⟨natToStrAux (n + 1) n⟩

/-- The payload length `complement` announces: 0 for no payload, the
buffer length, or the stream's size hint. -/
def SignedRequest.payloadLen (st : SignedRequest) : Option Nat :=
  match st.payload with
  | none => some 0
  | some (.buffer p) => some p.length
  | some (.stream h) => h

/-- `SignedRequest::complement`: recompute the canonical URI and query
string, reset the `Host` header, and reset `Content-Length` when the
payload size is known (absent payload counts as length 0). -/
def SignedRequest.complement (st : SignedRequest) : SignedRequest :=
  let st := { st with
    canonicalUri := st.canonicalPath,
    canonicalQueryString := build_canonical_query_string st.params }
  let st := (st.removeHeader "Host").addHeader "Host" st.hostnameOf
  match st.payloadLen with
  | some l => (st.removeHeader "Content-Length").addHeader "Content-Length" (natToStr l)
  | none => st

/-- `SignedRequest::is_request_signed`. -/
def SignedRequest.isRequestSigned (st : SignedRequest) : Bool :=
  (alGet "signature" st.params).isSome || (alGet "authorization" st.headers).isSome

/-- First value stored under `key` (exact, case-sensitive lookup), empty
string when the key is absent or its vector empty; models the
`Content-Md5` / `Content-Type` extraction inside `sign` (lines 336-358). -/
def contentHeaderFirst (key : String) (headers : AList (List String)) : String :=
  match alGet key headers with
  | some (v :: _) => v
  | some [] => ""
  | none => ""

/-- Rust `"a/b".split('/')` accumulator. -/
def splitCharAux (c : Char) : List Char → List Char → List (List Char)
  | [], acc => [acc.reverse]
  | x :: t, acc =>
    if x = c then acc.reverse :: splitCharAux c t [] else splitCharAux c t (x :: acc)

/-- Rust `str::split('/')`. -/
def splitSlash (s : String) : List String :=
  (splitCharAux '/' s.data []).map (fun l => ⟨l⟩)

/-- Rust `Vec::join("/")`. -/
def joinSlash : List String → String
  | [] => ""
  | [x] => x
  | x :: t => x ++ "/" ++ joinSlash t

/-- Canonical-resource URI munging inside `sign` (lines 312-328): strip
the leading `/`, split on `/`, re-join behind a leading `/`, and append a
trailing `/` when there was exactly one nonempty segment.  (The source
`strip_prefix("/").unwrap()` asserts the leading slash; a slash-less
nonempty URI is modelled as left unstripped.) -/
def signUriMunge (uri : String) : String :=
  if uri = "" then "/"
  else
    let stripped := if uri.data.head? = some '/' then (⟨uri.data.drop 1⟩ : String) else uri
    let uris := splitSlash stripped
    let append :=
      match uris with
      | [u] => decide (u ≠ "")
      | _ => false
    let uri2 := "/" ++ joinSlash uris
    if append then uri2 ++ "/" else uri2

/-- The canonical request string assembled by `sign` (lines 308-369),
parameterised by the formatted `Date` value: method, Content-MD5,
Content-Type and date lines, the canonical-header block when nonempty,
and the canonical resource. -/
def stringToSign (st : SignedRequest) (formattedTime : String) : String :=
  let ch := canonical_headers st.headers
  let uri := signUriMunge st.canonicalUri
  let canonicalResource :=
    if st.canonicalQueryString = "" then uri else uri ++ "?" ++ st.canonicalQueryString
  let md5Str := contentHeaderFirst "Content-Md5" st.headers
  let typeStr := contentHeaderFirst "Content-Type" st.headers
  let cr := st.method ++ "\n" ++ md5Str ++ "\n" ++ typeStr ++ "\n" ++ formattedTime
  let cr := if ch = "" then cr else cr ++ "\n" ++ ch
  cr ++ "\n" ++ canonicalResource

/-- `SignedRequest::sign`: complement, skip when already signed with
unexpired credentials, otherwise set `Date`, build the canonical request,
and set `Authorization`.  The wall clock and the HMAC-SHA1/base64
signature are parameters (`formattedTime` standing for
`rfc1123(now_utc)` and `hmacSign` for `sign_string`). -/
def SignedRequest.sign (st : SignedRequest) (creds : AwsCredentials) (now : Int)
    (formattedTime : String) (hmacSign : String → String → String) : SignedRequest :=
  let st := st.complement
  if st.isRequestSigned && !(credentialsAreExpired creds now) then st
  else
    let st := (st.removeHeader "Date").addHeader "Date" formattedTime
    let cr := stringToSign st formattedTime
    let signature := hmacSign cr creds.secret
    let authHeader := "AWS " ++ creds.key ++ ":" ++ signature
    (st.removeHeader "Authorization").addHeader "Authorization" authHeader

/-! Specification-side description combinators, used to state what the
canonicalization functions produce. -/

/-- Join a list of strings with a separator and no trailing separator
(the spec's "joined as ... separated by ..."). -/
def joinSep (sep : String) : List String → String
  | [] => ""
  | [x] => x
  | x :: t => x ++ sep ++ joinSep sep t

/-- The spec's rendering of one canonical query-string entry as produced
by the code: encoded key, `=`, encoded value (empty value part when the
value is absent). -/
def queryEntryOf (kv : String × Option String) : String :=
  encode_uri_strict kv.1 ++ "=" ++
    (match kv.2 with
     | some v => encode_uri_strict v
     | none => "")

/-- The spec's rendering of one canonical header line (without the
newline): `key:comma-joined-values`. -/
def headerLineOf (kv : String × List String) : String :=
  kv.1 ++ ":" ++ canonical_values kv.2

/-! XML cursor and parsing helpers (src/core/proto/xml/util.rs).
The `xml` crate event stream is modelled as a list of items, each either
an event or a reader error; the `XmlResponse` cursor skips Ok-whitespace
items in both `peek` and `next`. -/

/-- The `XmlEvent` variants consumed by the utilities. -/
inductive XmlEvent : Type
  | startDocument
  | endDocument
  | startElement (localName : String) (attributes : List (String × String))
  | endElement (localName : String)
  | characters (data : String)
  | cdata (data : String)
  | whitespace (data : String)
deriving DecidableEq

/-- One item of the token stream: `Result<XmlEvent, xml::reader::Error>`. -/
inductive XmlItem : Type
  | ok (event : XmlEvent)
  | err (msg : String)
deriving DecidableEq

/-- `XmlParseError`. -/
structure XmlParseError where
  msg : String
deriving DecidableEq

/-- Does the cursor skip this item (`Ok(XmlEvent::Whitespace(_))`)? -/
def isWsItem : XmlItem → Bool
  | .ok (.whitespace _) => true
  | _ => false

/-- Leading whitespace items dropped. -/
def skipWs (stack : List XmlItem) : List XmlItem := stack.dropWhile isWsItem

/-- `XmlResponse::peek`: consume leading whitespace, look at the head. -/
def xmlPeek (stack : List XmlItem) : Option XmlItem × List XmlItem :=
  ((skipWs stack).head?, skipWs stack)

/-- `XmlResponse::next`: consume through leading whitespace, pop the head. -/
def xmlNext (stack : List XmlItem) : Option XmlItem × List XmlItem :=
  match skipWs stack with
  | [] => (none, [])
  | x :: t => (some x, t)

/-- `characters` (read_text): empty string (no consumption) at an
end-tag, otherwise consume one token, returning its content for
text/CDATA and a parse failure for anything else. -/
def characters (stack : List XmlItem) : Except XmlParseError String × List XmlItem :=
  let probe := xmlPeek stack
  match probe.1 with
  | some (.ok (.endElement _)) => (.ok "", probe.2)
  | _ =>
    match xmlNext probe.2 with
    | (some (.ok (.characters d)), st) => (.ok d, st)
    | (some (.ok (.cdata d)), st) => (.ok d, st)
    | (_, st) => (.error ⟨"Expected characters"⟩, st)

/-- `peek_at_name`: the local name of the start element under the
cursor, or the empty string; never fails. -/
def peek_at_name (stack : List XmlItem) : Except XmlParseError String × List XmlItem :=
  let probe := xmlPeek stack
  match probe.1 with
  | some (.ok (.startElement n _)) => (.ok n, probe.2)
  | _ => (.ok "", probe.2)

/-- The tokenizer configuration `parse_response` passes to
`EventReader::new_with_config` (`ParserConfig::new().trim_whitespace(false)`). -/
structure ParserConfig where
  trimWhitespace : Bool
deriving DecidableEq

/-- `parse_response` over an already-buffered body: empty body yields the
default value with the tokenizer untouched; otherwise tokenize with
whitespace kept, discard the document-start token, peek the root local
name and hand it to the deserializer. -/
def parse_response {T : Type} [Inhabited T] (body : List Nat)
    (tokenize : ParserConfig → List Nat → List XmlItem)
    (deserialize : String → List XmlItem → Except XmlParseError T) :
    Except XmlParseError T :=
  if body.isEmpty then .ok default
  else
    let stack := tokenize ⟨false⟩ body
    let stack := (xmlNext stack).2
    let named := peek_at_name stack
    match named.1 with
    | .ok n => deserialize n named.2
    | .error e => .error e

deriving instance DecidableEq for Except

/-! Character and string infrastructure lemmas. -/

theorem char_toNat_ofNat_valid (n : Nat) (h : Nat.isValidChar n) :
    (Char.ofNat n).toNat = n := by
  simp only [Char.ofNat, dif_pos h, Char.ofNatAux, Char.toNat, UInt32.toNat]
  have hlt : n < 2 ^ 32 := by
    rcases h with h | ⟨h1, h2⟩ <;> omega
  exact BitVec.toNat_ofNatLt n hlt

theorem charEq_of_toNat_eq {a b : Char} (h : a.toNat = b.toNat) : a = b :=
  Char.eq_of_val_eq (UInt32.eq_of_toBitVec_eq (BitVec.toNat_injective h))

theorem lowerChar_idem (c : Char) : lowerChar (lowerChar c) = lowerChar c := by
  unfold lowerChar
  by_cases h : 65 ≤ c.toNat ∧ c.toNat ≤ 90
  · rw [if_pos h]
    have hv : Nat.isValidChar (c.toNat + 32) := Or.inl (by omega)
    have ht : (Char.ofNat (c.toNat + 32)).toNat = c.toNat + 32 :=
      char_toNat_ofNat_valid _ hv
    have hno : ¬(65 ≤ (Char.ofNat (c.toNat + 32)).toNat ∧
        (Char.ofNat (c.toNat + 32)).toNat ≤ 90) := by
      rw [ht]; omega
    rw [if_neg hno]
  · rw [if_neg h, if_neg h]

theorem lowerStr_idem (s : String) : lowerStr (lowerStr s) = lowerStr s := by
  apply String.ext
  simp [lowerStr, List.map_map, Function.comp_def, lowerChar_idem]

theorem strAppend_assoc (a b c : String) : a ++ b ++ c = a ++ (b ++ c) := by
  apply String.ext; simp [String.data_append]

theorem strAppend_empty (a : String) : a ++ "" = a := by
  apply String.ext; simp [String.data_append]

theorem empty_strAppend (a : String) : "" ++ a = a := by
  apply String.ext; simp [String.data_append]

/-! Lexicographic-order lemmas. -/

theorem lexLt_irrefl : ∀ l : List Char, lexLt l l = false
  | [] => rfl
  | a :: as => by simp [lexLt, lexLt_irrefl as]

theorem lexLt_trans : ∀ (a b c : List Char),
    lexLt a b = true → lexLt b c = true → lexLt a c = true := by
  intro a
  induction a with
  | nil =>
    intro b c h1 h2
    cases b with
    | nil => simp [lexLt] at h1
    | cons y ys =>
      cases c with
      | nil => simp [lexLt] at h2
      | cons z zs => simp [lexLt]
  | cons x xs ih =>
    intro b c h1 h2
    cases b with
    | nil => simp [lexLt] at h1
    | cons y ys =>
      cases c with
      | nil => simp [lexLt] at h2
      | cons z zs =>
        simp only [lexLt] at h1 h2 ⊢
        split_ifs at h1 h2 ⊢ <;>
          first
          | rfl
          | omega
          | exact ih ys zs h1 h2

theorem lexLt_total : ∀ a b : List Char, a = b ∨ lexLt a b = true ∨ lexLt b a = true := by
  intro a
  induction a with
  | nil =>
    intro b
    cases b with
    | nil => exact Or.inl rfl
    | cons y ys => exact Or.inr (Or.inl (by simp [lexLt]))
  | cons x xs ih =>
    intro b
    cases b with
    | nil => exact Or.inr (Or.inr (by simp [lexLt]))
    | cons y ys =>
      by_cases hxy : x.toNat < y.toNat
      · exact Or.inr (Or.inl (by simp [lexLt, hxy]))
      · by_cases hyx : y.toNat < x.toNat
        · exact Or.inr (Or.inr (by simp [lexLt, hyx]))
        · have hx : x = y := charEq_of_toNat_eq (by omega)
          subst hx
          rcases ih ys with h | h | h
          · exact Or.inl (by rw [h])
          · exact Or.inr (Or.inl (by simp [lexLt, h]))
          · exact Or.inr (Or.inr (by simp [lexLt, h]))

theorem strLt_irrefl (a : String) : strLt a a = false := lexLt_irrefl a.data

theorem strLt_trans {a b c : String} (h1 : strLt a b = true) (h2 : strLt b c = true) :
    strLt a c = true :=
  lexLt_trans a.data b.data c.data h1 h2

theorem strLt_total (a b : String) : a = b ∨ strLt a b = true ∨ strLt b a = true := by
  rcases lexLt_total a.data b.data with h | h | h
  · exact Or.inl (String.ext h)
  · exact Or.inr (Or.inl h)
  · exact Or.inr (Or.inr h)

theorem strLt_asymm {a b : String} (h : strLt a b = true) : strLt b a = false := by
  by_contra hc
  have hba : strLt b a = true := by
    cases hx : strLt b a
    · exact absurd hx hc
    · rfl
  have := strLt_trans h hba
  rw [strLt_irrefl] at this
  exact Bool.noConfusion this

theorem strLt_ne {a b : String} (h : strLt a b = true) : a ≠ b := by
  intro he
  subst he
  rw [strLt_irrefl] at h
  exact Bool.noConfusion h

/-! Association-list (BTreeMap model) lemmas. -/

theorem alGet_eq_none_iff {α : Type} (k : String) (m : AList α) :
    alGet k m = none ↔ k ∉ alKeys m := by
  induction m with
  | nil => simp [alGet, alKeys]
  | cons kv t ih =>
    by_cases h : kv.1 = k
    · simp [alGet, alKeys, h]
    · have h2 : ¬(k = kv.1) := fun he => h he.symm
      simp [alGet, alKeys, h, h2, ih]

theorem alGet_insertAppend_ne {k k2 v : String} (m : AList (List String)) (h : k ≠ k2) :
    alGet k (alInsertAppend k2 v m) = alGet k m := by
  have h2 : ¬(k2 = k) := fun he => h he.symm
  induction m with
  | nil => simp [alInsertAppend, alGet, h2]
  | cons kv t ih =>
    obtain ⟨k3, vs⟩ := kv
    simp only [alInsertAppend]
    split_ifs with hlt heq
    · simp [alGet, h2]
    · have h3 : ¬(k3 = k) := by
        rw [← heq]; exact fun he => h he.symm
      simp [alGet, h3]
    · simp only [alGet]
      rw [ih]

theorem alGet_erase_ne {α : Type} {k k2 : String} (m : AList α) (h : k ≠ k2) :
    alGet k (alErase k2 m) = alGet k m := by
  induction m with
  | nil => simp [alErase]
  | cons kv t ih =>
    simp only [alErase]
    split_ifs with h1
    · rw [ih]
      simp only [alGet]
      have : ¬(kv.1 = k) := by
        rw [h1]; exact fun he => h he.symm
      rw [if_neg this]
    · simp only [alGet]
      split_ifs with h3
      · rfl
      · exact ih

theorem alGet_erase_self {α : Type} (k : String) (m : AList α) :
    alGet k (alErase k m) = none := by
  induction m with
  | nil => simp [alErase, alGet]
  | cons kv t ih =>
    simp only [alErase]
    split_ifs with h1
    · exact ih
    · simp only [alGet]
      rw [if_neg h1]
      exact ih

theorem alGet_insertReplace_self {α : Type} (k : String) (v : α) (m : AList α) :
    alGet k (alInsertReplace k v m) = some v := by
  induction m with
  | nil => simp [alInsertReplace, alGet]
  | cons kv t ih =>
    obtain ⟨k2, w⟩ := kv
    simp only [alInsertReplace]
    split_ifs with h1 h2
    · simp [alGet]
    · simp [alGet]
    · simp only [alGet]
      rw [if_neg (fun he => h2 he.symm)]
      exact ih

theorem alGet_insertReplace_ne {α : Type} {k k2 : String} (v : α) (m : AList α)
    (h : k ≠ k2) : alGet k (alInsertReplace k2 v m) = alGet k m := by
  have hne : ¬(k2 = k) := fun he => h he.symm
  induction m with
  | nil => simp [alInsertReplace, alGet, hne]
  | cons kv t ih =>
    obtain ⟨k3, w⟩ := kv
    simp only [alInsertReplace]
    split_ifs with h1 h2
    · simp [alGet, hne]
    · subst h2
      simp [alGet, hne]
    · simp only [alGet]
      rw [ih]

theorem alKeys_mem_insertAppend {k v a : String} (m : AList (List String))
    (h : a ∈ alKeys (alInsertAppend k v m)) : a = k ∨ a ∈ alKeys m := by
  induction m with
  | nil =>
    simp only [alInsertAppend, alKeys, List.map_cons, List.map_nil, List.mem_singleton] at h
    exact Or.inl h
  | cons kv t ih =>
    obtain ⟨k2, vs⟩ := kv
    simp only [alInsertAppend] at h
    split_ifs at h with h1 h2
    · simpa [alKeys] using h
    · subst h2
      simp only [alKeys, List.map_cons, List.mem_cons] at h ⊢
      tauto
    · simp only [alKeys, List.map_cons, List.mem_cons] at h ⊢
      rcases h with h | h
      · tauto
      · rcases ih h with h | h <;> tauto

theorem mem_alErase {α : Type} {k : String} {kv : String × α} (m : AList α)
    (h : kv ∈ alErase k m) : kv ∈ m := by
  induction m with
  | nil => simp [alErase] at h
  | cons kv2 t ih =>
    simp only [alErase] at h
    split_ifs at h with h1
    · exact List.mem_cons_of_mem _ (ih h)
    · rcases List.mem_cons.mp h with h | h
      · exact h ▸ List.mem_cons_self _ _
      · exact List.mem_cons_of_mem _ (ih h)

theorem mem_alInsertAppend {k v : String} {kv : String × List String}
    (m : AList (List String)) (h : kv ∈ alInsertAppend k v m) :
    kv.1 = k ∨ kv.1 ∈ alKeys m := by
  induction m with
  | nil =>
    simp only [alInsertAppend, List.mem_singleton] at h
    subst h
    exact Or.inl rfl
  | cons kv2 t ih =>
    obtain ⟨k2, vs⟩ := kv2
    simp only [alInsertAppend] at h
    split_ifs at h with h1 h2
    · rcases List.mem_cons.mp h with h | h
      · subst h; exact Or.inl rfl
      · rcases List.mem_cons.mp h with h | h
        · subst h; exact Or.inr (by simp [alKeys])
        · simp only [alKeys, List.map_cons, List.mem_cons]
          exact Or.inr (Or.inr (List.mem_map_of_mem _ h))
    · rcases List.mem_cons.mp h with h | h
      · subst h; exact Or.inr (by simp [alKeys])
      · simp only [alKeys, List.map_cons, List.mem_cons]
        exact Or.inr (Or.inr (List.mem_map_of_mem _ h))
    · rcases List.mem_cons.mp h with h | h
      · subst h; exact Or.inr (by simp [alKeys])
      · rcases ih h with h | h
        · exact Or.inl h
        · simp only [alKeys, List.map_cons, List.mem_cons]
          exact Or.inr (Or.inr h)

theorem alKeys_mem_insertReplace {α : Type} {k a : String} {v : α} (m : AList α)
    (h : a ∈ alKeys (alInsertReplace k v m)) : a = k ∨ a ∈ alKeys m := by
  induction m with
  | nil => simpa [alInsertReplace, alKeys] using h
  | cons kv t ih =>
    obtain ⟨k2, w⟩ := kv
    simp only [alInsertReplace] at h
    split_ifs at h with h1 h2
    · simpa [alKeys] using h
    · simp only [alKeys, List.map_cons, List.mem_cons] at h ⊢
      tauto
    · simp only [alKeys, List.map_cons, List.mem_cons] at h ⊢
      rcases h with h | h
      · tauto
      · rcases ih h with h | h <;> tauto

theorem alKeys_mem_erase {α : Type} {k a : String} (m : AList α)
    (h : a ∈ alKeys (alErase k m)) : a ∈ alKeys m := by
  simp only [alKeys, List.mem_map] at h ⊢
  obtain ⟨kv, hkv, rfl⟩ := h
  exact ⟨kv, mem_alErase m hkv, rfl⟩

theorem sorted_alErase {α : Type} {k : String} {m : AList α} (h : SortedKeys m) :
    SortedKeys (alErase k m) := by
  induction m with
  | nil => simpa [alErase] using h
  | cons kv t ih =>
    simp only [SortedKeys, alKeys, List.map_cons, List.pairwise_cons] at h
    simp only [alErase]
    split_ifs with h1
    · exact ih h.2
    · simp only [SortedKeys, alKeys, List.map_cons, List.pairwise_cons]
      constructor
      · intro a ha
        exact h.1 a (alKeys_mem_erase t ha)
      · exact ih h.2

theorem sorted_alInsertAppend {k v : String} {m : AList (List String)}
    (h : SortedKeys m) : SortedKeys (alInsertAppend k v m) := by
  induction m with
  | nil => simp [alInsertAppend, SortedKeys, alKeys]
  | cons kv t ih =>
    obtain ⟨k2, vs⟩ := kv
    simp only [SortedKeys, alKeys, List.map_cons, List.pairwise_cons] at h
    simp only [alInsertAppend]
    split_ifs with h1 h2
    · simp only [SortedKeys, alKeys, List.map_cons, List.pairwise_cons]
      refine ⟨?_, h.1, h.2⟩
      intro a ha
      rcases List.mem_cons.mp ha with ha | ha
      · rw [ha]; exact h1
      · exact strLt_trans h1 (h.1 a ha)
    · subst h2
      simp only [SortedKeys, alKeys, List.map_cons, List.pairwise_cons]
      exact h
    · simp only [SortedKeys, alKeys, List.map_cons, List.pairwise_cons]
      constructor
      · intro a ha
        rcases alKeys_mem_insertAppend t ha with ha | ha
        · subst ha
          rcases strLt_total a k2 with he | hl | hl
          · exact absurd he h2
          · exact absurd hl h1
          · exact hl
        · exact h.1 a ha
      · exact ih h.2

theorem sorted_alInsertReplace {α : Type} {k : String} {v : α} {m : AList α}
    (h : SortedKeys m) : SortedKeys (alInsertReplace k v m) := by
  induction m with
  | nil => simp [alInsertReplace, SortedKeys, alKeys]
  | cons kv t ih =>
    obtain ⟨k2, w⟩ := kv
    simp only [SortedKeys, alKeys, List.map_cons, List.pairwise_cons] at h
    simp only [alInsertReplace]
    split_ifs with h1 h2
    · simp only [SortedKeys, alKeys, List.map_cons, List.pairwise_cons]
      refine ⟨?_, h.1, h.2⟩
      intro a ha
      rcases List.mem_cons.mp ha with ha | ha
      · rw [ha]; exact h1
      · exact strLt_trans h1 (h.1 a ha)
    · subst h2
      simp only [SortedKeys, alKeys, List.map_cons, List.pairwise_cons]
      exact h
    · simp only [SortedKeys, alKeys, List.map_cons, List.pairwise_cons]
      constructor
      · intro a ha
        rcases alKeys_mem_insertReplace t ha with ha | ha
        · subst ha
          rcases strLt_total a k2 with he | hl | hl
          · exact absurd he h2
          · exact absurd hl h1
          · exact hl
        · exact h.1 a ha
      · exact ih h.2

theorem alGet_insertAppend_fresh {k v : String} {m : AList (List String)}
    (h : alGet k m = none) : alGet k (alInsertAppend k v m) = some [v] := by
  induction m with
  | nil => simp [alInsertAppend, alGet]
  | cons kv t ih =>
    obtain ⟨k2, vs⟩ := kv
    simp only [alGet] at h
    split_ifs at h with h2
    simp only [alInsertAppend]
    split_ifs with h1 h3
    · simp [alGet]
    · exact absurd h3.symm h2
    · simp only [alGet, if_neg h2]
      exact ih h

theorem alExt {α : Type} : ∀ (m m2 : AList α), SortedKeys m → SortedKeys m2 →
    (∀ k, alGet k m = alGet k m2) → m = m2 := by
  intro m
  induction m with
  | nil =>
    intro m2 _ _ hg
    cases m2 with
    | nil => rfl
    | cons kv2 t2 =>
      have := hg kv2.1
      simp [alGet] at this
  | cons kv t ih =>
    intro m2 hs hs2 hg
    cases m2 with
    | nil =>
      have := hg kv.1
      simp [alGet] at this
    | cons kv2 t2 =>
      simp only [SortedKeys, alKeys, List.map_cons, List.pairwise_cons] at hs hs2
      have hni : kv.1 ∉ alKeys t := by
        intro hmem
        have := hs.1 _ hmem
        rw [strLt_irrefl] at this
        exact Bool.noConfusion this
      have hni2 : kv2.1 ∉ alKeys t2 := by
        intro hmem
        have := hs2.1 _ hmem
        rw [strLt_irrefl] at this
        exact Bool.noConfusion this
      have hL : alGet kv.1 (kv :: t) = some kv.2 := by simp [alGet]
      have hL2 : alGet kv2.1 (kv2 :: t2) = some kv2.2 := by simp [alGet]
      have hkeq : kv.1 = kv2.1 := by
        rcases strLt_total kv.1 kv2.1 with he | hl | hl
        · exact he
        · exfalso
          have hR : alGet kv.1 (kv2 :: t2) = none := by
            have hne : ¬(kv2.1 = kv.1) := fun he2 => strLt_ne hl he2.symm
            have hnotin : kv.1 ∉ alKeys t2 := by
              intro hmem
              have h3 := strLt_trans hl (hs2.1 _ hmem)
              rw [strLt_irrefl] at h3
              exact Bool.noConfusion h3
            simp only [alGet, if_neg hne]
            exact (alGet_eq_none_iff _ t2).mpr hnotin
          have hcon := (hL.symm.trans (hg kv.1)).trans hR
          exact Option.noConfusion hcon
        · exfalso
          have hR : alGet kv2.1 (kv :: t) = none := by
            have hne : ¬(kv.1 = kv2.1) := fun he2 => strLt_ne hl he2.symm
            have hnotin : kv2.1 ∉ alKeys t := by
              intro hmem
              have h3 := strLt_trans hl (hs.1 _ hmem)
              rw [strLt_irrefl] at h3
              exact Bool.noConfusion h3
            simp only [alGet, if_neg hne]
            exact (alGet_eq_none_iff _ t).mpr hnotin
          have hcon := (hL2.symm.trans (hg kv2.1).symm).trans hR
          exact Option.noConfusion hcon
      have hveq : kv.2 = kv2.2 := by
        have hR : alGet kv.1 (kv2 :: t2) = some kv2.2 := by
          simp only [alGet, if_pos hkeq.symm]
        have := (hL.symm.trans (hg kv.1)).trans hR
        exact Option.some.inj this
      have hteq : t = t2 := by
        apply ih t2 hs.2 hs2.2
        intro k
        by_cases hk : k = kv.1
        · subst hk
          have hni2b : kv.1 ∉ alKeys t2 := by rw [hkeq]; exact hni2
          rw [(alGet_eq_none_iff kv.1 t).mpr hni,
            (alGet_eq_none_iff kv.1 t2).mpr hni2b]
        · have hgk := hg k
          simp only [alGet] at hgk
          rw [if_neg (fun he => hk he.symm), if_neg (fun he => hk (hkeq.trans he).symm)] at hgk
          exact hgk
      have hkv : kv = kv2 := by
        cases kv
        cases kv2
        simp only [Prod.mk.injEq]
        exact ⟨hkeq, hveq⟩
      rw [hkv, hteq]

/-! Claim C3: expiry margin. -/

/-- Claim C3 is false as stated: with expiry 20 and now 0 we have
now + 20s >= expiry, yet `credentials_are_expired` (which tests the
strict `expiry < now + 20s`) reports the credentials as not expired. -/
theorem c3_counterexample :
    ¬(credentialsAreExpired ⟨"AK", "SK", none, some 20⟩ 0 = true ↔ (0 : Int) + 20 ≥ 20) := by
  decide

/-- Claim C3 (amended): credentials with an expiry timestamp are treated
as expired exactly when now + 20 seconds strictly exceeds the expiry (at
exact equality they are still valid); credentials with no expiry
timestamp are never expired. -/
theorem c3_expiry_margin (c : AwsCredentials) (now e : Int) :
    (c.expiresAt = some e → (credentialsAreExpired c now = true ↔ now + 20 > e)) ∧
    (c.expiresAt = none → credentialsAreExpired c now = false) := by
  constructor
  · intro h
    simp only [credentialsAreExpired, h, decide_eq_true_eq]
  · intro h
    simp [credentialsAreExpired, h]

/-- Witness for the amended C3 at concrete inputs. -/
theorem c3_witness :
    credentialsAreExpired ⟨"AK", "SK", none, some 20⟩ 1 = true ∧
    credentialsAreExpired ⟨"AK", "SK", none, none⟩ 0 = false := by
  constructor
  · exact ((c3_expiry_margin ⟨"AK", "SK", none, some 20⟩ 1 20).1 rfl).mpr (by omega)
  · exact (c3_expiry_margin ⟨"AK", "SK", none, none⟩ 0 0).2 rfl

/-! Claim C6: region name round-trip. -/

/-- Claim C6: for every non-custom region, parsing `name()` back yields
exactly that region, and the name consists of lowercase ASCII letters,
digits and hyphens; any string the parser rejects produces the
"Not a valid AWS region" error naming the (lowercased) input. -/
theorem c6_region_roundtrip :
    (∀ r : Region, r.isCustom = false →
      Region.fromStr r.name = .ok r ∧
      ∀ c ∈ r.name.data,
        (97 ≤ c.toNat ∧ c.toNat ≤ 122) ∨ (48 ≤ c.toNat ∧ c.toNat ≤ 57) ∨ c = '-') ∧
    (∀ s : String, (∃ r, Region.fromStr s = .ok r) ∨
      Region.fromStr s = .error (ParseRegionError.ofInput (lowerStr s))) := by
  constructor
  · intro r h
    cases r
    case Custom n e => simp [Region.isCustom] at h
    all_goals exact ⟨by rfl, by decide⟩
  · intro s
    have hstep : ∀ (c : Prop) (inst : Decidable c) (r : Region)
        (x : Except ParseRegionError Region) (e : ParseRegionError),
        ((∃ r2, x = .ok r2) ∨ x = .error e) →
        ((∃ r2, (@ite _ c inst (Except.ok r) x) = .ok r2) ∨
          (@ite _ c inst (Except.ok r) x) = .error e) := by
      intro c inst r x e hx
      by_cases hc : c
      · exact Or.inl ⟨r, by rw [if_pos hc]⟩
      · rw [if_neg hc]
        exact hx
    show (∃ r, Region.fromStrLower (lowerStr s) = .ok r) ∨
      Region.fromStrLower (lowerStr s) = .error (ParseRegionError.ofInput (lowerStr s))
    generalize lowerStr s = v
    unfold Region.fromStrLower
    iterate 25 apply hstep
    exact Or.inr rfl

/-- Witness for C6 at concrete inputs. -/
theorem c6_witness :
    Region.fromStr (Region.name .UsEast1) = .ok .UsEast1 ∧
    Region.fromStr "mars" = .error (ParseRegionError.ofInput "mars") := by
  constructor
  · exact (c6_region_roundtrip.1 .UsEast1 rfl).1
  · rcases c6_region_roundtrip.2 "mars" with ⟨r, hr⟩ | h
    · rw [(by decide :
        Region.fromStr "mars" = Except.error (ParseRegionError.ofInput "mars"))] at hr
      exact Except.noConfusion hr
    · rw [(by decide : lowerStr "mars" = "mars")] at h
      exact h

/-! Claim C9: custom-region endpoint resolution. -/

/-- Claim C9: for the custom region named "local" with endpoint
`http://localhost:9000/prefix`, the hostname resolves to
`localhost:9000` for every service, and the canonical URI for path
`/b/k` is `/prefix/b/k`. -/
theorem c9_custom_region_resolution :
    canonical_uri "/b/k" (Region.Custom "local" "http://localhost:9000/prefix") =
      "/prefix/b/k" ∧
    (∀ service : String,
      build_hostname service (Region.Custom "local" "http://localhost:9000/prefix") =
        "localhost:9000") ∧
    (∀ service : String,
      (SignedRequest.new "GET" service
        (Region.Custom "local" "http://localhost:9000/prefix") "/b/k").hostnameOf =
        "localhost:9000") := by
  refine ⟨by decide, ?_, ?_⟩
  · intro service
    unfold build_hostname
    split_ifs <;> rfl
  · intro service
    show build_hostname service (Region.Custom "local" "http://localhost:9000/prefix") =
      "localhost:9000"
    unfold build_hostname
    split_ifs <;> rfl

/-- Witness for C9 at a concrete service. -/
theorem c9_witness :
    build_hostname "s3" (Region.Custom "local" "http://localhost:9000/prefix") =
      "localhost:9000" :=
  c9_custom_region_resolution.2.1 "s3"

/-! Claim C2: canonical query string. -/

theorem strAppend_ne_empty_left {a : String} (b : String) (h : a ≠ "") :
    a ++ b ≠ "" := by
  intro he
  apply h
  apply String.ext
  have := congrArg String.data he
  rw [String.data_append] at this
  exact (List.append_eq_nil.mp this).1

theorem queryEntryOf_ne_empty (kv : String × Option String) : queryEntryOf kv ≠ "" := by
  intro he
  have := congrArg String.data he
  obtain ⟨k, ov⟩ := kv
  cases ov <;>
    simp [queryEntryOf, String.data_append, List.append_eq_nil,
      (by rfl : ("=" : String).data = ['='])] at this

theorem bcqsStep_empty_acc (kv : String × Option String) :
    bcqsStep "" kv = queryEntryOf kv := by
  apply String.ext
  obtain ⟨k, ov⟩ := kv
  cases ov <;> simp [bcqsStep, queryEntryOf, String.data_append]

theorem bcqsStep_ne_empty_acc {acc : String} (kv : String × Option String)
    (h : acc ≠ "") : bcqsStep acc kv = acc ++ "&" ++ queryEntryOf kv := by
  apply String.ext
  obtain ⟨k, ov⟩ := kv
  cases ov <;> simp [bcqsStep, queryEntryOf, if_neg h, String.data_append]

theorem bcqs_foldl_ne_empty : ∀ (t : AList (Option String)) (acc : String), acc ≠ "" →
    t.foldl bcqsStep acc =
      if t = [] then acc else acc ++ "&" ++ joinSep "&" (t.map queryEntryOf) := by
  intro t
  induction t with
  | nil => intro acc _; simp
  | cons kv t2 ih =>
    intro acc hacc
    have hstep := bcqsStep_ne_empty_acc kv hacc
    have hacc2 : acc ++ "&" ++ queryEntryOf kv ≠ "" :=
      strAppend_ne_empty_left _ (strAppend_ne_empty_left _ hacc)
    simp only [List.foldl_cons, hstep, ih _ (hstep ▸ hstep ▸ hacc2)]
    cases t2 with
    | nil => simp [joinSep]
    | cons kv2 t3 =>
      simp only [if_neg (by simp : ¬(kv2 :: t3 = [])), if_neg (by simp : ¬(kv :: kv2 :: t3 = []))]
      rw [List.map_cons, List.map_cons]
      show acc ++ "&" ++ queryEntryOf kv ++ "&" ++
          joinSep "&" (queryEntryOf kv2 :: t3.map queryEntryOf) =
        acc ++ "&" ++ joinSep "&" (queryEntryOf kv :: queryEntryOf kv2 :: t3.map queryEntryOf)
      rw [(by rfl : joinSep "&" (queryEntryOf kv :: queryEntryOf kv2 :: t3.map queryEntryOf) =
        queryEntryOf kv ++ "&" ++ joinSep "&" (queryEntryOf kv2 :: t3.map queryEntryOf))]
      apply String.ext
      simp [String.data_append]

/-- Claim C2 is false as stated: a parameter with an absent value still
gets a trailing `=` (the code pushes `=` unconditionally), so the map
`{acl ↦ None}` canonicalizes to "acl=" and not to "acl". -/
theorem c2_counterexample :
    build_canonical_query_string [("acl", (none : Option String))] = "acl=" ∧
    ("acl=" : String) ≠ "acl" := by
  constructor
  · rfl
  · decide

/-- Claim C2 (amended): the canonical query string of the empty map is
empty; in general it joins `encoded-key = encoded-value` entries (the
value part empty, but the `=` still present, for an absent value) with
`&` in the map's iteration order; insertion keeps the map sorted by key,
and sorted maps are determined by their lookups, so the output is in
ascending key order regardless of insertion order. -/
theorem c2_canonical_query_string :
    build_canonical_query_string ([] : AList (Option String)) = "" ∧
    (∀ m : AList (Option String),
      build_canonical_query_string m = joinSep "&" (m.map queryEntryOf)) ∧
    (∀ (m : AList (Option String)) (k : String) (v : Option String),
      SortedKeys m → SortedKeys (alInsertReplace k v m)) ∧
    (∀ m m2 : AList (Option String), SortedKeys m → SortedKeys m2 →
      (∀ k, alGet k m = alGet k m2) → m = m2) := by
  refine ⟨rfl, ?_, ?_, ?_⟩
  · intro m
    cases m with
    | nil => rfl
    | cons kv t =>
      show (kv :: t).foldl bcqsStep "" = _
      rw [List.foldl_cons, bcqsStep_empty_acc,
        bcqs_foldl_ne_empty t _ (queryEntryOf_ne_empty kv)]
      cases t with
      | nil => simp [joinSep]
      | cons kv2 t2 =>
        simp only [if_neg (by simp : ¬(kv2 :: t2 = []))]
        rfl
  · intro m k v hs
    exact sorted_alInsertReplace hs
  · intro m m2 hs hs2 hg
    exact alExt m m2 hs hs2 hg

/-- Witness for the amended C2 at concrete inputs. -/
theorem c2_witness :
    build_canonical_query_string [("a", some "1"), ("b", (none : Option String))] =
      "a=1&b=" ∧
    SortedKeys (alInsertReplace "b" (some "2") [("a", some "1")]) := by
  constructor
  · exact (c2_canonical_query_string.2.1 [("a", some "1"), ("b", none)]).trans (by decide)
  · exact c2_canonical_query_string.2.2.1 [("a", some "1")] "b" (some "2") (by decide)

/-! Claim C4: canonical headers. -/

theorem data_ne_nil {s : String} (h : s ≠ "") : s.data ≠ [] := by
  intro hd
  exact h (String.ext hd)

theorem dropLastChar_append {b : String} (a : String) (h : b ≠ "") :
    dropLastChar (a ++ b) = a ++ dropLastChar b := by
  apply String.ext
  simp [dropLastChar, String.data_append, List.dropLast_append_of_ne_nil _ (data_ne_nil h)]

theorem chStep_acc (acc : String) (kv : String × List String) :
    chStep acc kv = acc ++ chStep "" kv := by
  unfold chStep
  split_ifs <;> (apply String.ext; simp [String.data_append])

theorem ch_foldl_append : ∀ (t : AList (List String)) (acc : String),
    t.foldl chStep acc = acc ++ t.foldl chStep "" := by
  intro t
  induction t with
  | nil =>
    intro acc
    exact (strAppend_empty acc).symm
  | cons kv t2 ih =>
    intro acc
    rw [List.foldl_cons, ih (chStep acc kv), chStep_acc acc kv, List.foldl_cons,
      ih (chStep "" kv), strAppend_assoc]

theorem chB_eq : ∀ h : AList (List String), h.foldl chStep "" =
    ((h.filter (fun kv => strStartsWith kv.1 "x-amz-")).map headerLineOf).foldr
      (fun l acc => l ++ "\n" ++ acc) "" := by
  intro h
  induction h with
  | nil => rfl
  | cons kv t ih =>
    rw [List.foldl_cons, ch_foldl_append t (chStep "" kv), ih]
    by_cases hp : strStartsWith kv.1 "x-amz-"
    · simp only [List.filter_cons, hp, if_true, List.map_cons, List.foldr_cons]
      unfold chStep headerLineOf
      rw [if_pos hp]
      apply String.ext
      simp [String.data_append]
    · simp only [List.filter_cons, hp, if_false, Bool.false_eq_true]
      unfold chStep
      rw [if_neg hp, empty_strAppend]

theorem foldrNl_ne_empty (x : String) (t : List String) :
    (x :: t).foldr (fun l acc => l ++ "\n" ++ acc) "" ≠ "" := by
  intro h
  have := congrArg String.data h
  simp [String.data_append, List.append_eq_nil,
    (by rfl : ("\n" : String).data = ['\n'])] at this

theorem dropLast_foldrNl : ∀ (t : List String) (x : String),
    dropLastChar ((x :: t).foldr (fun l acc => l ++ "\n" ++ acc) "") =
      joinSep "\n" (x :: t) := by
  intro t
  induction t with
  | nil =>
    intro x
    apply String.ext
    simp [dropLastChar, joinSep, String.data_append, List.dropLast_concat]
  | cons y t2 ih =>
    intro x
    rw [List.foldr_cons, dropLastChar_append (x ++ "\n") (foldrNl_ne_empty y t2), ih y]
    show x ++ "\n" ++ joinSep "\n" (y :: t2) = joinSep "\n" (x :: y :: t2)
    rfl

theorem cv_foldl_ne : ∀ (t : List String) (acc : String), acc ≠ "" →
    t.foldl (fun st s => if st = "" then st ++ s else st ++ "," ++ s) acc =
      acc ++ t.foldr (fun s r => "," ++ s ++ r) "" := by
  intro t
  induction t with
  | nil =>
    intro acc _
    exact (strAppend_empty acc).symm
  | cons s t2 ih =>
    intro acc hacc
    rw [List.foldl_cons, if_neg hacc,
      ih (acc ++ "," ++ s) (strAppend_ne_empty_left _ (strAppend_ne_empty_left _ hacc)),
      List.foldr_cons]
    apply String.ext
    simp [String.data_append]

theorem foldrComma_eq_joinSep : ∀ t : List String, t ≠ [] →
    t.foldr (fun s r => "," ++ s ++ r) "" = "," ++ joinSep "," t := by
  intro t
  induction t with
  | nil => intro h; exact absurd rfl h
  | cons w t2 ih =>
    intro _
    cases t2 with
    | nil =>
      apply String.ext
      simp [joinSep, String.data_append]
    | cons w2 t3 =>
      rw [List.foldr_cons, ih (by simp)]
      show "," ++ w ++ ("," ++ joinSep "," (w2 :: t3)) = "," ++ joinSep "," (w :: w2 :: t3)
      rw [(by rfl : joinSep "," (w :: w2 :: t3) = w ++ "," ++ joinSep "," (w2 :: t3))]
      apply String.ext
      simp [String.data_append]

theorem canonical_values_eq_joinSep (vs : List String) (hv : ∀ v ∈ vs, v ≠ "") :
    canonical_values vs = joinSep "," vs := by
  cases vs with
  | nil => rfl
  | cons v t =>
    have hv1 : v ≠ "" := hv v (List.mem_cons_self _ _)
    show List.foldl (fun st s => if st = "" then st ++ s else st ++ "," ++ s) v t =
      joinSep "," (v :: t)
    cases t with
    | nil => rfl
    | cons w t2 =>
      rw [cv_foldl_ne (w :: t2) v hv1, foldrComma_eq_joinSep (w :: t2) (by simp)]
      show v ++ ("," ++ joinSep "," (w :: t2)) = v ++ "," ++ joinSep "," (w :: t2)
      apply String.ext
      simp [String.data_append]

theorem cv_cons_empty (t : List String) :
    canonical_values ("" :: t) = canonical_values t := rfl

theorem canonical_values_eq_dropWhile : ∀ vs : List String,
    canonical_values vs = joinSep "," (vs.dropWhile (fun v => decide (v = ""))) := by
  intro vs
  induction vs with
  | nil => rfl
  | cons v t ih =>
    by_cases hv : v = ""
    · subst hv
      rw [cv_cons_empty, ih]
      rfl
    · have hd : (v :: t).dropWhile (fun v2 => decide (v2 = "")) = v :: t := by
        simp [List.dropWhile, hv]
      rw [hd]
      show List.foldl (fun st s => if st = "" then st ++ s else st ++ "," ++ s) v t =
        joinSep "," (v :: t)
      cases t with
      | nil => rfl
      | cons w t2 =>
        rw [cv_foldl_ne (w :: t2) v hv, foldrComma_eq_joinSep (w :: t2) (by simp)]
        show v ++ ("," ++ joinSep "," (w :: t2)) = v ++ "," ++ joinSep "," (w :: t2)
        apply String.ext
        simp [String.data_append]

/-- Claim C4 is false as stated: on the sorted, lowercase (reachable)
header map `{x-amz-a ↦ ["", "b"]}` the code joins the values to "b",
not to the claimed comma-join ",b" — `canonical_values` only emits the
comma while the accumulated string is nonempty, so leading empty values
produce no separator. -/
theorem c4_counterexample :
    SortedKeys [("x-amz-a", ["", "b"])] ∧
    LowercaseKeys [("x-amz-a", ["", "b"])] ∧
    canonical_headers [("x-amz-a", ["", "b"])] = "x-amz-a:b" ∧
    ("x-amz-a:b" : String) ≠ "x-amz-a:,b" := by
  exact ⟨by decide, by decide, rfl, by decide⟩

/-- Claim C4 (amended): for sorted, lowercase header maps the canonical
header block consists of exactly the lines of the headers whose
(lowercase) name starts with `x-amz-`, one line per key, in ascending
key order, joined by newlines with no trailing newline; each line is
`key:joined-values` where the values are comma-joined after dropping
leading empty values (the separator is only emitted once the
accumulated string is nonempty), which is the plain comma-join whenever
the values are nonempty strings. -/
theorem c4_canonical_headers (h : AList (List String)) (hs : SortedKeys h)
    (hl : LowercaseKeys h) :
    canonical_headers h =
      joinSep "\n" ((h.filter (fun kv => strStartsWith (lowerStr kv.1) "x-amz-")).map
        (fun kv => kv.1 ++ ":" ++
          joinSep "," (kv.2.dropWhile (fun v => decide (v = ""))))) ∧
    List.Pairwise (fun a b => strLt a b = true)
      (alKeys (h.filter (fun kv => strStartsWith (lowerStr kv.1) "x-amz-"))) ∧
    (∀ vs : List String,
      canonical_values vs = joinSep "," (vs.dropWhile (fun v => decide (v = "")))) ∧
    (∀ vs : List String, (∀ v ∈ vs, v ≠ "") → canonical_values vs = joinSep "," vs) := by
  have hfe : h.filter (fun kv => strStartsWith (lowerStr kv.1) "x-amz-") =
      h.filter (fun kv => strStartsWith kv.1 "x-amz-") := by
    apply List.filter_congr
    intro kv hkv
    rw [hl kv hkv]
  have hfun : (fun kv : String × List String => kv.1 ++ ":" ++
      joinSep "," (kv.2.dropWhile (fun v => decide (v = "")))) = headerLineOf := by
    funext kv
    unfold headerLineOf
    rw [canonical_values_eq_dropWhile]
  refine ⟨?_, ?_, canonical_values_eq_dropWhile, canonical_values_eq_joinSep⟩
  · rw [hfe, hfun]
    unfold canonical_headers
    rw [chB_eq]
    cases hc : (h.filter (fun kv => strStartsWith kv.1 "x-amz-")).map headerLineOf with
    | nil => rfl
    | cons x t =>
      rw [if_neg (foldrNl_ne_empty x t), dropLast_foldrNl t x]
  · rw [hfe]
    have hsub : (h.filter (fun kv => strStartsWith kv.1 "x-amz-")).Sublist h :=
      List.filter_sublist h
    exact List.Pairwise.sublist (List.Sublist.map _ hsub) hs

/-- Witness for the amended C4: a concrete header map, and the
drop-leading-empties join at a value vector with a leading empty
value. -/
theorem c4_witness :
    canonical_headers
        [("content-type", ["text/xml"]), ("x-amz-a", ["1", "2"]), ("x-amz-b", ["z"])] =
      "x-amz-a:1,2\nx-amz-b:z" ∧
    canonical_values ["", "b"] = "b" := by
  constructor
  · exact ((c4_canonical_headers
      [("content-type", ["text/xml"]), ("x-amz-a", ["1", "2"]), ("x-amz-b", ["z"])]
      (by decide) (by decide)).1).trans (by decide)
  · exact ((c4_canonical_headers [] (by decide) (by decide)).2.2.1 ["", "b"]).trans
      (by decide)

/-! Claim C5: Content-MD5 / Content-Type lookups in `sign` always miss. -/

theorem alGet_none_of_lowercase {α : Type} {k : String} {m : AList α}
    (hl : LowercaseKeys m) (hk : lowerStr k ≠ k) : alGet k m = none := by
  rw [alGet_eq_none_iff]
  intro hmem
  simp only [alKeys, List.mem_map] at hmem
  obtain ⟨kv, hkv, hfst⟩ := hmem
  exact hk (by rw [← hfst]; exact hl kv hkv)

/-- Claim C5: when every header key is lowercase (as `add_header`
guarantees), the `Content-Md5` and `Content-Type` lookups inside `sign`
miss — even when `content-md5` / `content-type` headers are present — so
the corresponding positions of the string-to-sign are always empty. -/
theorem c5_content_positions_empty (st : SignedRequest) (t : String)
    (hl : LowercaseKeys st.headers) :
    contentHeaderFirst "Content-Md5" st.headers = "" ∧
    contentHeaderFirst "Content-Type" st.headers = "" ∧
    stringToSign st t =
      st.method ++ "\n" ++ "" ++ "\n" ++ "" ++ "\n" ++ t ++
        (if canonical_headers st.headers = "" then ""
         else "\n" ++ canonical_headers st.headers) ++ "\n" ++
        (if st.canonicalQueryString = "" then signUriMunge st.canonicalUri
         else signUriMunge st.canonicalUri ++ "?" ++ st.canonicalQueryString) := by
  have h1 : contentHeaderFirst "Content-Md5" st.headers = "" := by
    unfold contentHeaderFirst
    rw [alGet_none_of_lowercase hl (by decide)]
  have h2 : contentHeaderFirst "Content-Type" st.headers = "" := by
    unfold contentHeaderFirst
    rw [alGet_none_of_lowercase hl (by decide)]
  refine ⟨h1, h2, ?_⟩
  simp only [stringToSign, h1, h2]
  split_ifs <;> (apply String.ext; simp [String.data_append])

/-- Witness for C5: the lookups miss even with both lowercase content
headers present. -/
theorem c5_witness :
    contentHeaderFirst "Content-Md5"
        [("content-md5", ["ZJRkZJ=="]), ("content-type", ["text/xml"])] = "" ∧
    contentHeaderFirst "Content-Type"
        [("content-md5", ["ZJRkZJ=="]), ("content-type", ["text/xml"])] = "" := by
  have h := c5_content_positions_empty
    { method := "PUT", service := "s3", region := .UsEast1, path := "/",
      headers := [("content-md5", ["ZJRkZJ=="]), ("content-type", ["text/xml"])],
      params := [], scheme := none, hostname := none, payload := none,
      canonicalQueryString := "", canonicalUri := "/" } "T" (by decide)
  exact ⟨h.1, h.2.1⟩

/-! Claim C7: `characters` (read_text). -/

theorem skipWs_head_not_ws : ∀ {s : List XmlItem} {x : XmlItem} {rest : List XmlItem},
    skipWs s = x :: rest → isWsItem x = false := by
  intro s
  induction s with
  | nil =>
    intro x rest h
    exact absurd h (by simp [skipWs])
  | cons y t ih =>
    intro x rest h
    unfold skipWs List.dropWhile at h
    split at h
    · exact ih h
    · next hws =>
      cases h
      exact hws

theorem skipWs_idem (s : List XmlItem) : skipWs (skipWs s) = skipWs s := by
  cases h : skipWs s with
  | nil => simp [skipWs, h]
  | cons x rest =>
    have hx := skipWs_head_not_ws h
    simp [skipWs, List.dropWhile, hx]

theorem skipWs_cons_not_ws {x : XmlItem} (rest : List XmlItem) (hx : isWsItem x = false) :
    skipWs (x :: rest) = x :: rest := by
  simp [skipWs, List.dropWhile, hx]

/-- Claim C7: `characters` returns the empty string without consuming
the token when the cursor sits at an end-tag; otherwise it consumes
exactly one token, returning its content for text and CDATA tokens and a
parse failure ("Expected characters") for anything else, including an
exhausted stream. -/
theorem c7_characters (s : List XmlItem) :
    (∀ n, (skipWs s).head? = some (.ok (.endElement n)) →
      characters s = (.ok "", skipWs s)) ∧
    (∀ d rest, skipWs s = .ok (.characters d) :: rest →
      characters s = (.ok d, rest)) ∧
    (∀ d rest, skipWs s = .ok (.cdata d) :: rest →
      characters s = (.ok d, rest)) ∧
    (∀ x rest, skipWs s = x :: rest →
      (∀ n, x ≠ .ok (.endElement n)) →
      (∀ d, x ≠ .ok (.characters d)) →
      (∀ d, x ≠ .ok (.cdata d)) →
      characters s = (.error ⟨"Expected characters"⟩, rest)) ∧
    (skipWs s = [] → characters s = (.error ⟨"Expected characters"⟩, [])) := by
  refine ⟨?_, ?_, ?_, ?_, ?_⟩
  · intro n h
    simp [characters, xmlPeek, h]
  · intro d rest h
    have hx : isWsItem (XmlItem.ok (.characters d)) = false := rfl
    simp [characters, xmlPeek, xmlNext, h, skipWs_cons_not_ws rest hx]
  · intro d rest h
    have hx : isWsItem (XmlItem.ok (.cdata d)) = false := rfl
    simp [characters, xmlPeek, xmlNext, h, skipWs_cons_not_ws rest hx]
  · intro x rest h hne hnc hncd
    have hxw := skipWs_head_not_ws h
    have hskip := skipWs_cons_not_ws rest hxw
    cases x with
    | err m =>
      simp [characters, xmlPeek, xmlNext, h, hskip]
    | ok e =>
      cases e with
      | startDocument => simp [characters, xmlPeek, xmlNext, h, hskip]
      | endDocument => simp [characters, xmlPeek, xmlNext, h, hskip]
      | startElement n attrs => simp [characters, xmlPeek, xmlNext, h, hskip]
      | endElement n => exact absurd rfl (hne n)
      | characters d => exact absurd rfl (hnc d)
      | cdata d => exact absurd rfl (hncd d)
      | whitespace w => exact absurd hxw (by simp [isWsItem])
  · intro h
    simp only [characters, xmlPeek, xmlNext, h]
    rfl

/-- Witness for C7 at concrete streams. -/
theorem c7_witness :
    characters [XmlItem.ok (.whitespace " "), XmlItem.ok (.characters "hi")] =
      (.ok "hi", []) ∧
    characters [XmlItem.ok (.endElement "Name")] =
      (.ok "", [XmlItem.ok (.endElement "Name")]) := by
  constructor
  · exact (c7_characters _).2.1 "hi" [] (by decide)
  · exact ((c7_characters _).1 "Name" (by decide)).trans (by decide)

/-! Claim C8: `parse_response`. -/

theorem skipWs_wsPrefix (wss : List String) {x : XmlItem} (rest : List XmlItem)
    (hx : isWsItem x = false) :
    skipWs ((wss.map (fun w => XmlItem.ok (.whitespace w))) ++ x :: rest) = x :: rest := by
  induction wss with
  | nil => simp [skipWs, List.dropWhile, hx]
  | cons w t ih =>
    simp only [List.map_cons, List.cons_append]
    rw [skipWs, List.dropWhile]
    simp only [isWsItem]
    exact ih

/-- Claim C8: with an empty buffered body, `parse_response` returns the
default value and never consults the tokenizer; with a nonempty body it
tokenizes with whitespace kept (`trim_whitespace(false)`), discards the
document-start token, and hands the root start-element's local name and
the cursor to the deserializer. -/
theorem c8_parse_response {T : Type} [Inhabited T]
    (tokenize : ParserConfig → List Nat → List XmlItem)
    (deserialize : String → List XmlItem → Except XmlParseError T) :
    (parse_response [] tokenize deserialize = .ok default ∧
      ∀ tokenize2, parse_response [] tokenize deserialize =
        parse_response [] tokenize2 deserialize) ∧
    (∀ (body : List Nat) (wss : List String) (n : String)
        (attrs : List (String × String)) (rest : List XmlItem),
      body ≠ [] →
      tokenize ⟨false⟩ body =
        XmlItem.ok .startDocument ::
          (wss.map (fun w => XmlItem.ok (.whitespace w)) ++
            XmlItem.ok (.startElement n attrs) :: rest) →
      parse_response body tokenize deserialize =
        deserialize n (XmlItem.ok (.startElement n attrs) :: rest)) := by
  constructor
  · exact ⟨rfl, fun _ => rfl⟩
  · intro body wss n attrs rest hne htok
    cases body with
    | nil => exact absurd rfl hne
    | cons b bs =>
      have hemp : ¬((b :: bs).isEmpty = true) := by simp
      have h1 : xmlNext (XmlItem.ok .startDocument ::
          (wss.map (fun w => XmlItem.ok (.whitespace w)) ++
            XmlItem.ok (.startElement n attrs) :: rest)) =
          (some (XmlItem.ok .startDocument),
            wss.map (fun w => XmlItem.ok (.whitespace w)) ++
              XmlItem.ok (.startElement n attrs) :: rest) := by
        unfold xmlNext
        rw [skipWs_cons_not_ws _ (by rfl)]
      have h2 : skipWs (wss.map (fun w => XmlItem.ok (.whitespace w)) ++
          XmlItem.ok (.startElement n attrs) :: rest) =
          XmlItem.ok (.startElement n attrs) :: rest :=
        skipWs_wsPrefix wss rest (by rfl)
      simp only [parse_response, if_neg hemp, htok, h1, peek_at_name, xmlPeek, h2]
      rfl

/-- Witness for C8 with a concrete tokenizer and deserializer. -/
theorem c8_witness :
    parse_response [65]
      (fun _ _ => [XmlItem.ok .startDocument, XmlItem.ok (.whitespace " "),
        XmlItem.ok (.startElement "Root" []), XmlItem.ok (.endElement "Root")])
      (fun nm _ => Except.ok nm) = .ok "Root" ∧
    parse_response ([] : List Nat)
      (fun _ _ => [XmlItem.ok .startDocument])
      (fun nm _ => Except.ok nm) = .ok "" := by
  constructor
  · exact (c8_parse_response _ _).2 [65] [" "] "Root" [] [XmlItem.ok (.endElement "Root")]
      (by simp) rfl
  · exact (c8_parse_response _ _).1.1

/-! Claim C10: the lowercase-key invariant. -/

theorem lk_insertAppend {m : AList (List String)} (hl : LowercaseKeys m) (k v : String) :
    LowercaseKeys (alInsertAppend (lowerStr k) v m) := by
  intro kv hkv
  rcases mem_alInsertAppend m hkv with h | h
  · rw [h, lowerStr_idem]
  · simp only [alKeys, List.mem_map] at h
    obtain ⟨kv2, hkv2, hfst⟩ := h
    rw [← hfst]
    exact hl kv2 hkv2

theorem lk_erase {α : Type} {m : AList α} (hl : LowercaseKeys m) (k : String) :
    LowercaseKeys (alErase k m) :=
  fun kv hkv => hl kv (mem_alErase m hkv)

theorem lk_addHeader {st : SignedRequest} (hl : LowercaseKeys st.headers)
    (k v : String) : LowercaseKeys (st.addHeader k v).headers :=
  lk_insertAppend hl k v

theorem lk_removeHeader {st : SignedRequest} (hl : LowercaseKeys st.headers)
    (k : String) : LowercaseKeys (st.removeHeader k).headers :=
  lk_erase hl (lowerStr k)

theorem lk_complement {st : SignedRequest} (hl : LowercaseKeys st.headers) :
    LowercaseKeys st.complement.headers := by
  unfold SignedRequest.complement
  dsimp only
  split
  · exact lk_addHeader (lk_removeHeader (lk_addHeader (lk_removeHeader hl "Host")
      "Host" _) "Content-Length") "Content-Length" _
  · exact lk_addHeader (lk_removeHeader hl "Host") "Host" _

theorem lk_sign {st : SignedRequest} (hl : LowercaseKeys st.headers)
    (creds : AwsCredentials) (now : Int) (t : String)
    (f : String → String → String) : LowercaseKeys (st.sign creds now t f).headers := by
  unfold SignedRequest.sign
  dsimp only
  split
  · exact lk_complement hl
  · exact lk_addHeader (lk_removeHeader (lk_addHeader (lk_removeHeader
      (lk_complement hl) "Date") "Date" _) "Authorization") "Authorization" _

/-- Claim C10: every header key of a `SignedRequest` is ASCII-lowercase,
and this invariant is preserved by `add_header`, `remove_header`,
`add_optional_header`, `set_content_type`, `complement` and `sign`
(insertions lowercase the key; removals look up the lowercased key). -/
theorem c10_lowercase_invariant (st : SignedRequest) (k v ct : String)
    (ov : Option String) (creds : AwsCredentials) (now : Int) (t : String)
    (f : String → String → String) (hl : LowercaseKeys st.headers) :
    LowercaseKeys (st.addHeader k v).headers ∧
    LowercaseKeys (st.removeHeader k).headers ∧
    LowercaseKeys (st.addOptionalHeader k ov).headers ∧
    LowercaseKeys (st.setContentType ct).headers ∧
    LowercaseKeys st.complement.headers ∧
    LowercaseKeys (st.sign creds now t f).headers := by
  refine ⟨lk_addHeader hl k v, lk_removeHeader hl k, ?_, lk_addHeader hl _ ct,
    lk_complement hl, lk_sign hl creds now t f⟩
  cases ov with
  | none => exact hl
  | some v2 => exact lk_addHeader hl k v2

/-- Witness for C10 at a concrete request and header. -/
theorem c10_witness :
    LowercaseKeys ((SignedRequest.new "GET" "s3" .UsEast1 "/").addHeader
      "X-Amz-Meta-Tag" "v").headers :=
  (c10_lowercase_invariant (SignedRequest.new "GET" "s3" .UsEast1 "/")
    "X-Amz-Meta-Tag" "v" "text/xml" none ⟨"AK", "SK", none, none⟩ 0 "T"
    (fun _ _ => "") (by decide)).1

/-! Claim C1: behaviour of `sign` on already-signed requests. -/

theorem sr_ext (a b : SignedRequest) (h1 : a.method = b.method)
    (h2 : a.service = b.service) (h3 : a.region = b.region) (h4 : a.path = b.path)
    (h5 : a.headers = b.headers) (h6 : a.params = b.params) (h7 : a.scheme = b.scheme)
    (h8 : a.hostname = b.hostname) (h9 : a.payload = b.payload)
    (h10 : a.canonicalQueryString = b.canonicalQueryString)
    (h11 : a.canonicalUri = b.canonicalUri) : a = b := by
  cases a
  cases b
  simp_all

theorem complement_fields (st : SignedRequest) :
    st.complement.method = st.method ∧
    st.complement.service = st.service ∧
    st.complement.region = st.region ∧
    st.complement.path = st.path ∧
    st.complement.params = st.params ∧
    st.complement.scheme = st.scheme ∧
    st.complement.hostname = st.hostname ∧
    st.complement.payload = st.payload ∧
    st.complement.canonicalUri = canonical_uri st.path st.region ∧
    st.complement.canonicalQueryString = build_canonical_query_string st.params := by
  unfold SignedRequest.complement SignedRequest.removeHeader SignedRequest.addHeader
    SignedRequest.canonicalPath
  dsimp only
  split <;> exact ⟨rfl, rfl, rfl, rfl, rfl, rfl, rfl, rfl, rfl, rfl⟩

theorem complement_hostnameOf (st : SignedRequest) :
    st.complement.hostnameOf = st.hostnameOf := by
  unfold SignedRequest.hostnameOf
  rw [(complement_fields st).2.2.2.2.2.2.1, (complement_fields st).2.1,
    (complement_fields st).2.2.1]

theorem complement_payloadLen (st : SignedRequest) :
    st.complement.payloadLen = st.payloadLen := by
  unfold SignedRequest.payloadLen
  rw [(complement_fields st).2.2.2.2.2.2.2.1]

theorem complement_get_other {st : SignedRequest} {k : String}
    (h1 : k ≠ "host") (h2 : k ≠ "content-length") :
    alGet k st.complement.headers = alGet k st.headers := by
  have e1 : lowerStr "Host" = "host" := by decide
  have e2 : lowerStr "Content-Length" = "content-length" := by decide
  unfold SignedRequest.complement SignedRequest.removeHeader SignedRequest.addHeader
  dsimp only
  split
  · rw [e1, e2, alGet_insertAppend_ne _ h2, alGet_erase_ne _ h2,
      alGet_insertAppend_ne _ h1, alGet_erase_ne _ h1]
  · rw [e1, alGet_insertAppend_ne _ h1, alGet_erase_ne _ h1]

theorem complement_get_host (st : SignedRequest) :
    alGet "host" st.complement.headers = some [st.hostnameOf] := by
  have e1 : lowerStr "Host" = "host" := by decide
  have e2 : lowerStr "Content-Length" = "content-length" := by decide
  unfold SignedRequest.complement SignedRequest.removeHeader SignedRequest.addHeader
  dsimp only
  split
  · rw [e1, e2, alGet_insertAppend_ne _ (by decide), alGet_erase_ne _ (by decide),
      alGet_insertAppend_fresh (alGet_erase_self _ _)]
    rfl
  · rw [e1, alGet_insertAppend_fresh (alGet_erase_self _ _)]
    rfl

theorem complement_get_cl (st : SignedRequest) :
    alGet "content-length" st.complement.headers =
      (match st.payloadLen with
       | some l => some [natToStr l]
       | none => alGet "content-length" st.headers) := by
  have e1 : lowerStr "Host" = "host" := by decide
  have e2 : lowerStr "Content-Length" = "content-length" := by decide
  unfold SignedRequest.complement SignedRequest.removeHeader SignedRequest.addHeader
  dsimp only
  split
  · next l heq =>
    have heq2 : st.payloadLen = some l := heq
    rw [heq2]
    rw [e1, e2, alGet_insertAppend_fresh (alGet_erase_self _ _)]
  · next heq =>
    have heq2 : st.payloadLen = none := heq
    rw [heq2]
    dsimp only
    rw [e1, alGet_insertAppend_ne _ (by decide), alGet_erase_ne _ (by decide)]

theorem complement_sorted {st : SignedRequest} (hs : SortedKeys st.headers) :
    SortedKeys st.complement.headers := by
  unfold SignedRequest.complement SignedRequest.removeHeader SignedRequest.addHeader
  dsimp only
  split
  · exact sorted_alInsertAppend (sorted_alErase (sorted_alInsertAppend (sorted_alErase hs)))
  · exact sorted_alInsertAppend (sorted_alErase hs)

theorem complement_idem (st : SignedRequest) (hs : SortedKeys st.headers) :
    st.complement.complement = st.complement := by
  obtain ⟨m1, s1, r1, p1, pa1, sc1, ho1, pl1, cu1, cq1⟩ := complement_fields st
  obtain ⟨m2, s2, r2, p2, pa2, sc2, ho2, pl2, cu2, cq2⟩ :=
    complement_fields st.complement
  refine sr_ext _ _ m2 s2 r2 p2 ?_ pa2 sc2 ho2 pl2 ?_ ?_
  · apply alExt _ _ (complement_sorted (complement_sorted hs)) (complement_sorted hs)
    intro k
    by_cases hk1 : k = "host"
    · subst hk1
      rw [complement_get_host st.complement, complement_get_host st,
        complement_hostnameOf]
    · by_cases hk2 : k = "content-length"
      · subst hk2
        rw [complement_get_cl st.complement, complement_payloadLen,
          complement_get_cl st]
        cases st.payloadLen <;> rfl
      · rw [complement_get_other hk1 hk2]
  · rw [cq2, pa1, cq1]
  · rw [cu2, p1, r1, cu1]

theorem isRequestSigned_complement (st : SignedRequest) :
    st.complement.isRequestSigned = st.isRequestSigned := by
  unfold SignedRequest.isRequestSigned
  rw [(complement_fields st).2.2.2.2.1,
    complement_get_other (by decide) (by decide)]

/-- Claim C1 is false as stated: `sign` always runs `complement` first,
so even on a request that already carries a `signature` query parameter
(with unexpired credentials) it is not a no-op — here it adds the `host`
and `content-length` headers and fills the canonical fields. -/
theorem c1_counterexample :
    ((SignedRequest.new "GET" "s3" .UsEast1 "/").addParam "signature" "x").isRequestSigned
        = true ∧
    credentialsAreExpired ⟨"AK", "SK", none, none⟩ 0 = false ∧
    ((SignedRequest.new "GET" "s3" .UsEast1 "/").addParam "signature" "x").sign
        ⟨"AK", "SK", none, none⟩ 0 "T" (fun _ _ => "") ≠
      (SignedRequest.new "GET" "s3" .UsEast1 "/").addParam "signature" "x" := by
  exact ⟨rfl, rfl, by decide⟩

/-- Claim C1 (amended): on a request already carrying a `signature`
query parameter or an `authorization` header, with unexpired
credentials, `sign` performs exactly `complement`'s normalization
(canonical fields, `Host`, `Content-Length`) and nothing else: the
`Authorization` header is left byte-identical, and a second `sign` (at
any time at which the credentials are still unexpired) changes nothing
at all.  Header maps of reachable requests are sorted (`BTreeMap`). -/
theorem c1_sign_skip (st : SignedRequest) (creds : AwsCredentials) (now now2 : Int)
    (t t2 : String) (f f2 : String → String → String)
    (hsig : st.isRequestSigned = true)
    (hexp : credentialsAreExpired creds now = false)
    (hexp2 : credentialsAreExpired creds now2 = false)
    (hs : SortedKeys st.headers) :
    st.sign creds now t f = st.complement ∧
    alGet "authorization" (st.sign creds now t f).headers =
      alGet "authorization" st.headers ∧
    (st.sign creds now t f).sign creds now2 t2 f2 = st.sign creds now t f := by
  have h1 : st.complement.isRequestSigned = true := by
    rw [isRequestSigned_complement]
    exact hsig
  have hskip : st.sign creds now t f = st.complement := by
    unfold SignedRequest.sign
    dsimp only
    rw [h1, hexp]
    rfl
  refine ⟨hskip, ?_, ?_⟩
  · rw [hskip]
    exact complement_get_other (by decide) (by decide)
  · rw [hskip]
    unfold SignedRequest.sign
    dsimp only
    rw [complement_idem st hs, h1, hexp2]
    rfl

/-- Witness for the amended C1 at a concrete already-signed request. -/
theorem c1_witness :
    ((SignedRequest.new "GET" "s3" .UsEast1 "/").addHeader "Authorization"
        "AWS AK:x").sign ⟨"AK", "SK", none, none⟩ 0 "T" (fun _ _ => "") =
      ((SignedRequest.new "GET" "s3" .UsEast1 "/").addHeader "Authorization"
        "AWS AK:x").complement ∧
    (((SignedRequest.new "GET" "s3" .UsEast1 "/").addHeader "Authorization"
        "AWS AK:x").sign ⟨"AK", "SK", none, none⟩ 0 "T" (fun _ _ => "")).sign
        ⟨"AK", "SK", none, none⟩ 5 "T2" (fun _ _ => "x") =
      ((SignedRequest.new "GET" "s3" .UsEast1 "/").addHeader "Authorization"
        "AWS AK:x").sign ⟨"AK", "SK", none, none⟩ 0 "T" (fun _ _ => "") := by
  have h := c1_sign_skip
    ((SignedRequest.new "GET" "s3" .UsEast1 "/").addHeader "Authorization" "AWS AK:x")
    ⟨"AK", "SK", none, none⟩ 0 5 "T" "T2" (fun _ _ => "") (fun _ _ => "x")
    (by decide) (by decide) (by decide) (by decide)
  exact ⟨h.1, h.2.2⟩

end KS3
